import Mathlib

/-!
Verification of the BrahmaHub ingest-wizard frontend and its streaming client
(`src/frontend/src/services/ingest.ts`, the add-package dialog component) and,
where the backend implementation is not part of the sources, models written
from the specification (crash-recovery sweep, subject resolver).

Strings are embedded as `List Char`; JavaScript objects as structures; the
stateful wizard as explicit state passing.
-/

namespace BrahmaHub

/-! ## String helpers (JS semantics on `List Char`) -/

/-- JS whitespace test as used by `String.prototype.trim` (ASCII fragment). -/
def isJsSpace (c : Char) : Bool := c.isWhitespace

/-- `s.trim()`: drop whitespace at both ends. -/
def trimChars (s : List Char) : List Char :=
  ((s.dropWhile isJsSpace).reverse.dropWhile isJsSpace).reverse

/-- `s.replace(/_/g, " ")`. -/
def underscoreToSpace (s : List Char) : List Char :=
  s.map fun c => if c = '_' then ' ' else c

/-- Regex `\w`: ASCII letter, digit or underscore. -/
def isWordChar (c : Char) : Bool := c.isAlphanum || c = '_'

/-- `s.replace(/\b\w/g, c => c.toUpperCase())`: upper-case every word
character that sits at a word boundary, i.e. whose predecessor is absent or
is not a word character.  The boolean argument records whether the previous
character was a word character. -/
def titleCaseAux : Bool → List Char → List Char
  | _, [] => []
  | prevWord, c :: cs =>
    (if isWordChar c && !prevWord then c.toUpper else c) :: titleCaseAux (isWordChar c) cs

def titleCase (s : List Char) : List Char := titleCaseAux false s

/-- `normalizeSubjectName` from the add-package dialog:
`name.trim().replace(/_/g, " ").replace(/\b\w/g, c => c.toUpperCase())`. -/
def normalizeSubjectName (s : List Char) : List Char :=
  titleCase (underscoreToSpace (trimChars s))

/-- The subject-name transformation inlined in `handleIngest` when building the
execute request: `s.name.trim().replace(/_/g, " ").replace(/\b\w/g, c => c.toUpperCase())`. -/
def handleIngestSubjectName (s : List Char) : List Char :=
  titleCase (underscoreToSpace (trimChars s))

/-- `s.toLowerCase()` (ASCII fragment). -/
def toLowerChars (s : List Char) : List Char := s.map Char.toLower

/-- Boolean prefix test on character lists. -/
def isPfx : List Char → List Char → Bool
  | [], _ => true
  | _ :: _, [] => false
  | a :: as, b :: bs => a = b && isPfx as bs

/-- Boolean `hay.includes(needle)` substring test. -/
def isSubstring (needle hay : List Char) : Bool :=
  match hay with
  | [] => needle.isEmpty
  | _ :: t => isPfx needle hay || isSubstring needle t

/-! ## findSubjectMatch (add-package dialog) -/

/-- One entry of `existingSubjectList`: the subject's original name together
with `normalizeSubjectName(s.name).toLowerCase()`. -/
structure ExistingSubject where
  original : List Char
  normalized : List Char
deriving DecidableEq

/-- `existingSubjectList`: built from the names of the existing DB subjects. -/
def mkExistingSubjectList (names : List (List Char)) : List ExistingSubject :=
  names.map fun n => ⟨n, toLowerChars (normalizeSubjectName n)⟩

inductive SubjectMatchType
  | exact
  | fuzzy
  | noMatch
deriving DecidableEq

structure SubjectMatch where
  type : SubjectMatchType
  matchNames : List (List Char)
deriving DecidableEq

/-- `findSubjectMatch(rawName)`: exact on lower-cased normalized equality,
else "fuzzy" when either normalized name contains the other. -/
def findSubjectMatch (existing : List ExistingSubject) (rawName : List Char) : SubjectMatch :=
  let norm := toLowerChars (normalizeSubjectName rawName)
  match existing.find? (fun s => s.normalized = norm) with
  | some e => ⟨.exact, [e.original]⟩
  | none =>
    let fuzzy := existing.filter fun s => isSubstring norm s.normalized || isSubstring s.normalized norm
    if fuzzy.isEmpty then ⟨.noMatch, []⟩
    else ⟨.fuzzy, fuzzy.map (·.original)⟩

/-! ## Analysis data model (`frontend/src/types/index.ts`) -/

/-- `FileAnalysis`. -/
structure FileAnalysis where
  original_path : List Char
  file_type : List Char
  size_bytes : Nat
  subject : List Char
  camera : List Char
  asset_type : List Char
  selected : Bool
deriving DecidableEq

/-- `SubjectAnalysis`. -/
structure SubjectAnalysis where
  name : List Char
  file_count : Nat
  total_size_bytes : Nat
  files : List FileAnalysis
deriving DecidableEq

/-! ## Wizard state edits (add-package dialog) -/

/-- `toggleFileSelected(subjectIdx, fileIdx)`: deep-copies the subjects array
and negates `files[fileIdx].selected` of subject `subjectIdx`.  Out-of-range
indices leave the state unchanged. -/
def toggleFileSelected (prev : List SubjectAnalysis) (subjectIdx fileIdx : Nat) :
    List SubjectAnalysis :=
  match prev[subjectIdx]? with
  | none => prev
  | some s =>
    match s.files[fileIdx]? with
    | none => prev
    | some f =>
      prev.set subjectIdx { s with files := s.files.set fileIdx { f with selected := !f.selected } }

/-- `toggleAllInSubject(subjectIdx, selected)`: sets `selected` on every file
of subject `subjectIdx`. -/
def toggleAllInSubject (prev : List SubjectAnalysis) (subjectIdx : Nat) (selected : Bool) :
    List SubjectAnalysis :=
  match prev[subjectIdx]? with
  | none => prev
  | some s => prev.set subjectIdx { s with files := s.files.map fun f => { f with selected := selected } }

/-- `renameSubject(subjectIdx, name)`: replaces the subject's display name. -/
def renameSubject (prev : List SubjectAnalysis) (subjectIdx : Nat) (name : List Char) :
    List SubjectAnalysis :=
  match prev[subjectIdx]? with
  | none => prev
  | some s => prev.set subjectIdx { s with name := name }

/-- The wizard edit operations available between analyze and execute. -/
inductive WizardEdit
  | toggleFile (subjectIdx fileIdx : Nat)
  | toggleAll (subjectIdx : Nat) (selected : Bool)
  | rename (subjectIdx : Nat) (name : List Char)

def applyEdit (subjects : List SubjectAnalysis) : WizardEdit → List SubjectAnalysis
  | .toggleFile si fi => toggleFileSelected subjects si fi
  | .toggleAll si sel => toggleAllInSubject subjects si sel
  | .rename si n => renameSubject subjects si n

def applyEdits (subjects : List SubjectAnalysis) (edits : List WizardEdit) : List SubjectAnalysis :=
  edits.foldl applyEdit subjects

/-- `handleAnalyze`'s post-processing of the analyze response: auto-rename
subjects whose name exactly matches, or fuzzy-matches a single, existing
subject; then deep-copy (identity in a pure model). -/
def autoRenameSubjects (existing : List ExistingSubject) (resSubjects : List SubjectAnalysis) :
    List SubjectAnalysis :=
  resSubjects.map fun s =>
    let m := findSubjectMatch existing s.name
    if m.type = .exact ∨ (m.type = .fuzzy ∧ m.matchNames.length = 1) then
      { s with name := m.matchNames.headD s.name }
    else s

/-! ## Execute request construction (`handleIngest`) -/

/-- One file entry of the execute request's `subjects` field. -/
structure IngestFilePayload where
  original_path : List Char
  selected : Bool
  subject : List Char
  asset_type : List Char
deriving DecidableEq

/-- One subject entry of the execute request's `subjects` field. -/
structure IngestSubjectPayload where
  name : List Char
  files : List IngestFilePayload
deriving DecidableEq

/-- The `subjects` field of the execute request, exactly as `handleIngest`
builds it from the wizard's `subjects` state. -/
def buildExecuteSubjects (subjects : List SubjectAnalysis) : List IngestSubjectPayload :=
  subjects.map fun s =>
    { name := handleIngestSubjectName s.name
      files := s.files.map fun f =>
        { original_path := f.original_path
          selected := f.selected
          subject := f.subject
          asset_type := f.asset_type } }

/-! ## Dataset mappings (`handleIngest`, `DatasetMappingState`) -/

inductive DsStatus
  | matched
  | review
  | newDir
  | skip
deriving DecidableEq

/-- `DatasetMappingState`. -/
structure DatasetMappingState where
  dir : List Char
  isNew : Bool
  status : DsStatus
deriving DecidableEq

/-- `DatasetMapping` as sent in the execute request. -/
structure DatasetMapping where
  subject_name : List Char
  dataset_dir : List Char
  is_new : Bool
deriving DecidableEq

/-- A qualifying entry: status other than `skip` and a truthy (non-empty)
directory string. -/
def dsQualifies (st : DatasetMappingState) : Bool :=
  st.status ≠ .skip && st.dir ≠ []

/-- `handleIngest`'s `dsMappings` accumulation: empty when datasets are
globally skipped or the map is empty, otherwise the qualifying entries of the
insertion-ordered map. -/
def buildDsMappings (skipDatasets : Bool)
    (datasetMappings : List (List Char × DatasetMappingState)) : List DatasetMapping :=
  if !skipDatasets && datasetMappings.length > 0 then
    (datasetMappings.filter fun p => dsQualifies p.2).map fun p =>
      { subject_name := p.1, dataset_dir := p.2.dir, is_new := p.2.isNew }
  else []

/-- The optional `dataset_mappings` field of the execute request:
`...(dsMappings.length > 0 ? { dataset_mappings: dsMappings } : {})`. -/
def datasetMappingsField (skipDatasets : Bool)
    (datasetMappings : List (List Char × DatasetMappingState)) : Option (List DatasetMapping) :=
  let ds := buildDsMappings skipDatasets datasetMappings
  if ds.length > 0 then some ds else none

/-! ## Streaming client (`executeIngestStream`, ingest.ts) -/

/-- `IngestExecuteResult`. -/
structure IngestExecuteResult where
  package_id : List Char
  file_count : Nat
  subjects_created : List (List Char)
deriving DecidableEq

/-- `IngestStreamEvent`: progress events carry no `type` field; the other
variants carry `type: "complete" | "error" | "finalizing"`. -/
inductive IngestStreamEvent
  | progress (current total : Nat) (file step : List Char) (elapsed : Nat)
  | complete (package_id : List Char) (file_count : Nat)
      (subjects_created : List (List Char)) (elapsed : Nat)
  | error (message : List Char) (elapsed : Nat)
  | finalizing (message : List Char) (total_files elapsed : Nat)
deriving DecidableEq

/-- The value of `"type" in event ? event.type : undefined`. -/
def eventType : IngestStreamEvent → Option (List Char)
  | .progress .. => none
  | .complete .. => some "complete".data
  | .error .. => some "error".data
  | .finalizing .. => some "finalizing".data

def isCompleteEv : IngestStreamEvent → Bool
  | .complete .. => true
  | _ => false

def isErrorEv : IngestStreamEvent → Bool
  | .error .. => true
  | _ => false

/-- What the loop body finds in one complete line: a line that does not start
with `"data: "` (skipped by `continue`), a `data:` line whose JSON fails to
parse (the `SyntaxError` branch, also skipped), or a parsed event. -/
inductive StreamLine
  | nonData
  | malformed
  | event (e : IngestStreamEvent)

/-- Classification of one raw line, as in the loop body: only lines starting
`"data: "` are considered, and `line.slice(6)` is handed to the JSON parser
(abstracted as `parse`, returning `none` where `JSON.parse` throws a
`SyntaxError`). -/
def classifyLine (parse : List Char → Option IngestStreamEvent) (line : List Char) : StreamLine :=
  if isPfx "data: ".data line then
    match parse (line.drop 6) with
    | some e => .event e
    | none => .malformed
  else .nonData

/-- The per-line loop of `executeIngestStream`, over the sequence of complete
lines: delivers each parsed event to `onProgress` (collected as the first
component, in order), records the payload of a `complete` event as the
pending result, aborts with the message of an `error` event, and when the
lines run out resolves with the recorded result or rejects with
`"Stream ended without completion event"`. -/
def processLines : List StreamLine → Option IngestExecuteResult →
    List IngestStreamEvent × Except (List Char) IngestExecuteResult
  | [], none => ([], .error "Stream ended without completion event".data)
  | [], some r => ([], .ok r)
  | .nonData :: rest, acc => processLines rest acc
  | .malformed :: rest, acc => processLines rest acc
  | .event e :: rest, acc =>
    match e with
    | .error m _ => ([e], .error m)
    | .complete pid fc sc _ =>
      let p := processLines rest (some ⟨pid, fc, sc⟩)
      (e :: p.1, p.2)
    | _ =>
      let p := processLines rest acc
      (e :: p.1, p.2)

/-- The events parsed from a line sequence, in stream order. -/
def eventsOf (lines : List StreamLine) : List IngestStreamEvent :=
  lines.filterMap fun
    | .event e => some e
    | _ => none

/-- Truncation at the first `error` event (inclusive): past it the loop has
thrown and no further line is examined. -/
def takeThruError : List IngestStreamEvent → List IngestStreamEvent
  | [] => []
  | e :: es => if isErrorEv e then [e] else e :: takeThruError es

/-- `buffer.split("\n")` — like JS `split`, always non-empty, and the pieces
contain no newline. -/
def splitOnNl : List Char → List (List Char)
  | [] => [[]]
  | c :: cs =>
    match splitOnNl cs with
    | [] => [[c]]
    | p :: ps => if c = '\n' then [] :: p :: ps else (c :: p) :: ps

/-- The chunk loop of `executeIngestStream`: append the decoded chunk to the
buffer, split on newlines, keep the final piece as the new buffer
(`buffer = lines.pop() || ""`), and process the complete lines.  When the
reader reports `done`, the loop exits and whatever remains in the buffer is
dropped. -/
def extractLinesAux : List (List Char) → List Char → List (List Char)
  | [], _ => []
  | chunk :: rest, buffer =>
    let pieces := splitOnNl (buffer ++ chunk)
    pieces.dropLast ++ extractLinesAux rest (pieces.getLastD [])

def extractLines (chunks : List (List Char)) : List (List Char) :=
  extractLinesAux chunks []

/-- `executeIngestStream`, after a successful fetch: the body's chunk
sequence is decoded, cut into newline-terminated lines, each line classified
and run through the event loop.  Returns the `onProgress` delivery trace and
the promise outcome. -/
def executeIngestStream (parse : List Char → Option IngestStreamEvent)
    (chunks : List (List Char)) :
    List IngestStreamEvent × Except (List Char) IngestExecuteResult :=
  processLines ((extractLines chunks).map (classifyLine parse)) none

/-! ## Wizard step transitions around `handleIngest` -/

inductive Step
  | input
  | preview
  | datasets
  | confirm
  | ingesting
  | done
deriving DecidableEq

/-- The slice of dialog state that `handleIngest`'s terminal code touches. -/
structure WizardState where
  step : Step
  result : Option IngestExecuteResult
deriving DecidableEq

/-- `handleIngest` around the await of `executeIngestStream`: it first sets
the step to `ingesting`; on resolution it records the result and moves to
`done`; on rejection (the `catch` branch) it moves back to `confirm` and
leaves `result` untouched. -/
def handleIngestTransition (st : WizardState)
    (outcome : Except (List Char) IngestExecuteResult) : WizardState :=
  let running : WizardState := { st with step := .ingesting }
  match outcome with
  | .ok r => { running with step := .done, result := some r }
  | .error _ => { running with step := .confirm }

/-- The whole ingest attempt as observed by the dialog: start from `st`, run
`executeIngestStream` on the server's chunk stream, apply the terminal
transition. -/
def runIngestAttempt (st : WizardState) (parse : List Char → Option IngestStreamEvent)
    (chunks : List (List Char)) : WizardState :=
  handleIngestTransition st (executeIngestStream parse chunks).2

/-! ## Crash recovery sweep (backend, modelled) -/

inductive PackageStatus
  | ingested
  | processing
  | ready
  | error
deriving DecidableEq

/-- A Package row (the fields the recovery sweep can observe). -/
structure PackageRow where
  id : Nat
  name : List Char
  status : PackageStatus
  file_count : Nat
  total_size_bytes : Nat
deriving DecidableEq

/-- An Asset row (identified by package and filename). -/
structure AssetRow where
  package_id : Nat
  filename : List Char
  original_path : List Char
deriving DecidableEq

/-- The two tables the sweep touches. -/
structure Db where
  packages : List PackageRow
  assets : List AssetRow
deriving DecidableEq

/-- Modelled from the spec: the transition applied to one Package row by the
crash-recovery sweep — a `processing` row becomes `error`, any other row is
left as is. -/
def sweepPackage (p : PackageRow) : PackageRow :=
  if p.status = .processing then { p with status := .error } else p

/-- Modelled from the spec: the backend crash-recovery sweep `recover()`
(§4.5) is not among these sources (only the docs describe it).  Per the
spec it scans for all Package rows in `processing` status, transitions each
to `error`, does not touch Asset rows, and returns the count of packages
transitioned. -/
def recover (db : Db) : Db × Nat :=
  ({ packages := db.packages.map sweepPackage
     assets := db.assets },
   (db.packages.filter fun p => p.status = .processing).length)

/-! ## Subject resolver match precedence (backend, modelled) -/

inductive DsMatchType
  | exact
  | prefixMatch
  | substringMatch
  | fuzzy
deriving DecidableEq

/-- Precedence rank: lower rank is consulted first. -/
def tierRank : DsMatchType → Nat
  | .exact => 0
  | .prefixMatch => 1
  | .substringMatch => 2
  | .fuzzy => 3

/-- Modelled from the spec: the backend subject resolver (§4.2) is not among
these sources (only its response types and callers are).  The comparison key
is the normalized candidate name; one tier's hits among the dataset
directory names: `exact` is normalized equality, `prefixMatch` holds when one
normalized string is a prefix of the other, `substringMatch` when either
contains the other, `fuzzy` when the similarity score reaches the minimum
threshold. -/
def tierHits (sim : List Char → List Char → ℚ) (minScore : ℚ)
    (name : List Char) (dirs : List (List Char)) : DsMatchType → List (List Char)
  | .exact => dirs.filter fun d =>
      normalizeSubjectName d = normalizeSubjectName name
  | .prefixMatch => dirs.filter fun d =>
      isPfx (normalizeSubjectName d) (normalizeSubjectName name) ||
      isPfx (normalizeSubjectName name) (normalizeSubjectName d)
  | .substringMatch => dirs.filter fun d =>
      isSubstring (normalizeSubjectName d) (normalizeSubjectName name) ||
      isSubstring (normalizeSubjectName name) (normalizeSubjectName d)
  | .fuzzy => dirs.filter fun d =>
      minScore ≤ sim (normalizeSubjectName name) (normalizeSubjectName d)

/-- Modelled from the spec: the resolver's top suggestion — the tiers are
evaluated in precedence order `exact`, `prefixMatch`, `substringMatch`,
`fuzzy`, and the first tier with a hit wins. -/
def resolveTopMatch (sim : List Char → List Char → ℚ) (minScore : ℚ)
    (name : List Char) (dirs : List (List Char)) : Option (List Char × DsMatchType) :=
  match tierHits sim minScore name dirs .exact with
  | d :: _ => some (d, .exact)
  | [] =>
    match tierHits sim minScore name dirs .prefixMatch with
    | d :: _ => some (d, .prefixMatch)
    | [] =>
      match tierHits sim minScore name dirs .substringMatch with
      | d :: _ => some (d, .substringMatch)
      | [] =>
        match tierHits sim minScore name dirs .fuzzy with
        | d :: _ => some (d, .fuzzy)
        | [] => none

/-! ## Helper lemmas -/

lemma set_getElem_self_eq {α : Type} (l : List α) (i : Nat) (h : i < l.length) :
    l.set i l[i] = l := by
  apply List.ext_getElem?
  intro n
  by_cases hn : n = i
  · subst hn
    rw [List.getElem?_set_self (by omega), List.getElem?_eq_getElem h]
  · rw [List.getElem?_set_ne (by omega)]

lemma toggleFileSelected_eq_set (subjects : List SubjectAnalysis) (si fi : Nat)
    (h1 : si < subjects.length) (h2 : fi < subjects[si].files.length) :
    toggleFileSelected subjects si fi =
      subjects.set si { subjects[si] with
        files := subjects[si].files.set fi
          { subjects[si].files[fi] with selected := !subjects[si].files[fi].selected } } := by
  unfold toggleFileSelected
  rw [List.getElem?_eq_getElem h1]
  dsimp only
  rw [List.getElem?_eq_getElem h2]

/-- Claim C10: `toggleFileSelected(i, j)` negates only the `selected` field of
file `j` of subject `i`; every other field of that file, every other file,
every other subject, and the subject's name and aggregate fields are
unchanged; applying it twice restores the original state. -/
theorem toggle_file_selected_frame (subjects : List SubjectAnalysis) (si fi : Nat)
    (h1 : si < subjects.length) (h2 : fi < subjects[si].files.length) :
    ((toggleFileSelected subjects si fi).length = subjects.length) ∧
    (∀ i, i ≠ si → (toggleFileSelected subjects si fi)[i]? = subjects[i]?) ∧
    ((toggleFileSelected subjects si fi)[si]?.map SubjectAnalysis.name
        = some subjects[si].name) ∧
    ((toggleFileSelected subjects si fi)[si]?.map SubjectAnalysis.file_count
        = some subjects[si].file_count) ∧
    ((toggleFileSelected subjects si fi)[si]?.map SubjectAnalysis.total_size_bytes
        = some subjects[si].total_size_bytes) ∧
    ((toggleFileSelected subjects si fi)[si]?.map (fun s => s.files.length)
        = some subjects[si].files.length) ∧
    (∀ j, j ≠ fi → (toggleFileSelected subjects si fi)[si]?.map (fun s => s.files[j]?)
        = some (subjects[si].files[j]?)) ∧
    ((toggleFileSelected subjects si fi)[si]?.map (fun s => s.files[fi]?)
        = some (some { subjects[si].files[fi] with
            selected := !subjects[si].files[fi].selected })) ∧
    (toggleFileSelected (toggleFileSelected subjects si fi) si fi = subjects) := by
  have hset := toggleFileSelected_eq_set subjects si fi h1 h2
  refine ⟨?_, ?_, ?_, ?_, ?_, ?_, ?_, ?_, ?_⟩
  · rw [hset, List.length_set]
  · intro i hi
    rw [hset, List.getElem?_set_ne (by omega)]
  · rw [hset, List.getElem?_set_self (by omega)]
    rfl
  · rw [hset, List.getElem?_set_self (by omega)]
    rfl
  · rw [hset, List.getElem?_set_self (by omega)]
    rfl
  · rw [hset, List.getElem?_set_self (by omega)]
    simp [List.length_set]
  · intro j hj
    rw [hset, List.getElem?_set_self h1]
    simp only [Option.map_some']
    rw [List.getElem?_set_ne (by omega)]
  · rw [hset, List.getElem?_set_self h1]
    simp only [Option.map_some']
    rw [List.getElem?_set_self h2]
  · rw [hset]
    unfold toggleFileSelected
    rw [List.getElem?_set_self h1]
    dsimp only
    rw [List.getElem?_set_self h2]
    dsimp only
    rw [List.set_set, List.set_set]
    simp only [Bool.not_not]
    have e1 : ({ subjects[si].files[fi] with selected := subjects[si].files[fi].selected } :
        FileAnalysis) = subjects[si].files[fi] := rfl
    rw [e1, set_getElem_self_eq _ _ h2]
    have e2 : ({ subjects[si] with files := subjects[si].files } : SubjectAnalysis)
        = subjects[si] := rfl
    rw [e2, set_getElem_self_eq _ _ h1]

/-- Witness for C10 at a concrete two-file state. -/
theorem toggle_file_selected_frame_witness :
    toggleFileSelected (toggleFileSelected
        [⟨"Jane".data, 2, 10, [⟨"/a/x.mp4".data, "video".data, 4, "Jane".data, "c1".data, "raw".data, true⟩,
          ⟨"/a/y.mp4".data, "video".data, 6, "Jane".data, "c2".data, "raw".data, false⟩]⟩] 0 1) 0 1 =
      [⟨"Jane".data, 2, 10, [⟨"/a/x.mp4".data, "video".data, 4, "Jane".data, "c1".data, "raw".data, true⟩,
        ⟨"/a/y.mp4".data, "video".data, 6, "Jane".data, "c2".data, "raw".data, false⟩]⟩] :=
  (toggle_file_selected_frame _ 0 1 (by decide) (by decide)).2.2.2.2.2.2.2.2

/-- Claim C4: the name the wizard uses for matching and sends in the execute
request is the normalization of the candidate: trim, underscore to space,
title-case — `handleIngest` builds the sent name by exactly the
`normalizeSubjectName` pipeline, `findSubjectMatch` depends on the candidate
only through its normalization, and `"jane_doe"` normalizes to
`"Jane Doe"`. -/
theorem subject_name_normalization :
    (∀ s, handleIngestSubjectName s = normalizeSubjectName s) ∧
    (∀ existing r1 r2, normalizeSubjectName r1 = normalizeSubjectName r2 →
        findSubjectMatch existing r1 = findSubjectMatch existing r2) ∧
    normalizeSubjectName "jane_doe".data = "Jane Doe".data := by
  refine ⟨fun s => rfl, ?_, by decide⟩
  intro existing r1 r2 h
  unfold findSubjectMatch
  rw [h]

/-- Witness for C4: two spellings with the same normalization match alike. -/
theorem subject_name_normalization_witness :
    findSubjectMatch (mkExistingSubjectList ["Jane Doe".data]) "jane_doe".data
      = findSubjectMatch (mkExistingSubjectList ["Jane Doe".data]) "jane doe".data :=
  subject_name_normalization.2.1 (mkExistingSubjectList ["Jane Doe".data])
    "jane_doe".data "jane doe".data (by decide)

/-! ## Preservation of original paths (C6) -/

/-- The per-subject lists of `original_path` values. -/
def subjectPaths (subjects : List SubjectAnalysis) : List (List (List Char)) :=
  subjects.map fun s => s.files.map fun f => f.original_path

lemma set_map_getElem? {α β : Type} (l : List α) (g : α → β) (i : Nat) (a : α)
    (h : l[i]? = some a) : (l.map g).set i (g a) = l.map g := by
  apply List.ext_getElem?
  intro n
  by_cases hn : n = i
  · subst hn
    obtain ⟨hi, he⟩ := List.getElem?_eq_some.mp h
    rw [List.getElem?_set_self (by simpa using hi), List.getElem?_map, h]
    rfl
  · rw [List.getElem?_set_ne (by omega)]

lemma subjectPaths_toggleFileSelected (prev : List SubjectAnalysis) (si fi : Nat) :
    subjectPaths (toggleFileSelected prev si fi) = subjectPaths prev := by
  unfold toggleFileSelected
  cases h1 : prev[si]? with
  | none => rfl
  | some s =>
    dsimp only
    cases h2 : s.files[fi]? with
    | none => rfl
    | some f =>
      unfold subjectPaths
      rw [List.map_set]
      dsimp only
      rw [List.map_set]
      dsimp only
      rw [set_map_getElem? _ _ _ _ h2]
      exact set_map_getElem? _ _ _ _ h1

lemma subjectPaths_toggleAllInSubject (prev : List SubjectAnalysis) (si : Nat) (sel : Bool) :
    subjectPaths (toggleAllInSubject prev si sel) = subjectPaths prev := by
  unfold toggleAllInSubject
  cases h1 : prev[si]? with
  | none => rfl
  | some s =>
    dsimp only
    unfold subjectPaths
    rw [List.map_set]
    dsimp only
    rw [List.map_map]
    have hmm : s.files.map ((fun f => f.original_path) ∘
        (fun f => { f with selected := sel })) = s.files.map fun f => f.original_path := by
      apply List.map_congr_left
      intro a _
      rfl
    rw [hmm]
    exact set_map_getElem? _ _ _ _ h1

lemma subjectPaths_renameSubject (prev : List SubjectAnalysis) (si : Nat) (n : List Char) :
    subjectPaths (renameSubject prev si n) = subjectPaths prev := by
  unfold renameSubject
  cases h1 : prev[si]? with
  | none => rfl
  | some s =>
    dsimp only
    unfold subjectPaths
    rw [List.map_set]
    dsimp only
    exact set_map_getElem? _ _ _ _ h1

lemma subjectPaths_applyEdit (subjects : List SubjectAnalysis) (e : WizardEdit) :
    subjectPaths (applyEdit subjects e) = subjectPaths subjects := by
  cases e with
  | toggleFile si fi => exact subjectPaths_toggleFileSelected subjects si fi
  | toggleAll si sel => exact subjectPaths_toggleAllInSubject subjects si sel
  | rename si n => exact subjectPaths_renameSubject subjects si n

lemma subjectPaths_applyEdits (subjects : List SubjectAnalysis) (edits : List WizardEdit) :
    subjectPaths (applyEdits subjects edits) = subjectPaths subjects := by
  induction edits generalizing subjects with
  | nil => rfl
  | cons e rest ih =>
    show subjectPaths (applyEdits (applyEdit subjects e) rest) = _
    rw [ih, subjectPaths_applyEdit]

lemma subjectPaths_autoRenameSubjects (existing : List ExistingSubject)
    (resSubjects : List SubjectAnalysis) :
    subjectPaths (autoRenameSubjects existing resSubjects) = subjectPaths resSubjects := by
  unfold subjectPaths autoRenameSubjects
  rw [List.map_map]
  apply List.map_congr_left
  intro s _
  by_cases hc : (findSubjectMatch existing s.name).type = .exact ∨
      ((findSubjectMatch existing s.name).type = .fuzzy ∧
        (findSubjectMatch existing s.name).matchNames.length = 1)
  · simp only [Function.comp_apply, if_pos hc]
  · simp only [Function.comp_apply, if_neg hc]

lemma buildExecuteSubjects_paths (subjects : List SubjectAnalysis) :
    (buildExecuteSubjects subjects).map (fun p => p.files.map fun f => f.original_path)
      = subjectPaths subjects := by
  unfold buildExecuteSubjects subjectPaths
  rw [List.map_map]
  apply List.map_congr_left
  intro s _
  simp only [Function.comp_apply]
  rw [List.map_map]
  rfl

/-- Claim C6: for every analysis result and every sequence of wizard edits,
the execute request's file entries carry exactly the `original_path` values
of the analyze response, subject by subject and file by file — no edit
operation and no request-building step ever changes an `original_path`. -/
theorem original_path_preserved (existing : List ExistingSubject)
    (resSubjects : List SubjectAnalysis) (edits : List WizardEdit) :
    (buildExecuteSubjects (applyEdits (autoRenameSubjects existing resSubjects) edits)).map
        (fun p => p.files.map fun f => f.original_path)
      = resSubjects.map fun s => s.files.map fun f => f.original_path := by
  rw [buildExecuteSubjects_paths, subjectPaths_applyEdits, subjectPaths_autoRenameSubjects]
  rfl

/-! ## Dataset-mapping field (C8) -/

lemma buildDsMappings_true (dm : List (List Char × DatasetMappingState)) :
    buildDsMappings true dm = [] := rfl

lemma buildDsMappings_false (dm : List (List Char × DatasetMappingState)) :
    buildDsMappings false dm = (dm.filter fun p => dsQualifies p.2).map fun p =>
      { subject_name := p.1, dataset_dir := p.2.dir, is_new := p.2.isNew } := by
  cases dm with
  | nil => rfl
  | cons a t =>
    show buildDsMappings false (a :: t) = _
    unfold buildDsMappings
    simp

/-- Claim C8: the execute request carries a `dataset_mappings` field exactly
when datasets are not globally skipped and some subject's mapping has status
other than `skip` and a non-empty directory; in that case the field holds
exactly the qualifying mappings, as `{subject_name, dataset_dir, is_new}`
records, and otherwise the field is omitted. -/
theorem dataset_mappings_field_iff (skipDatasets : Bool)
    (dm : List (List Char × DatasetMappingState)) :
    (datasetMappingsField skipDatasets dm = none ↔
        (skipDatasets = true ∨ ∀ p ∈ dm, dsQualifies p.2 = false)) ∧
    (∀ l, datasetMappingsField skipDatasets dm = some l →
        skipDatasets = false ∧ l ≠ [] ∧
        l = (dm.filter fun p => dsQualifies p.2).map fun p =>
          { subject_name := p.1, dataset_dir := p.2.dir, is_new := p.2.isNew }) := by
  cases skipDatasets with
  | true =>
    constructor
    · exact ⟨fun _ => Or.inl rfl, fun _ => rfl⟩
    · intro l h
      exact Option.noConfusion h
  | false =>
    by_cases hq : dm.filter (fun p => dsQualifies p.2) = []
    · have hfield : datasetMappingsField false dm = none := by
        unfold datasetMappingsField
        rw [buildDsMappings_false, hq]
        rfl
      constructor
      · rw [hfield]
        simp only [true_iff]
        right
        intro p hp
        have := (List.filter_eq_nil_iff.mp hq) p hp
        simpa using this
      · intro l h
        rw [hfield] at h
        exact absurd h (by simp)
    · have hlen : 0 < ((dm.filter fun p => dsQualifies p.2).map fun p =>
          ({ subject_name := p.1, dataset_dir := p.2.dir, is_new := p.2.isNew }
            : DatasetMapping)).length := by
        rw [List.length_map]
        exact Nat.pos_of_ne_zero fun h0 => hq (List.eq_nil_of_length_eq_zero h0)
      have hfield : datasetMappingsField false dm =
          some ((dm.filter fun p => dsQualifies p.2).map fun p =>
            { subject_name := p.1, dataset_dir := p.2.dir, is_new := p.2.isNew }) := by
        unfold datasetMappingsField
        rw [buildDsMappings_false, if_pos (by simpa using hlen)]
      constructor
      · rw [hfield]
        constructor
        · intro h
          exact absurd h (by simp)
        · rintro (hft | hall)
          · exact absurd hft (by simp)
          · exact absurd (List.filter_eq_nil_iff.mpr fun p hp => by simp [hall p hp]) hq
      · intro l h
        rw [hfield] at h
        have hl : l = (dm.filter fun p => dsQualifies p.2).map fun p =>
            { subject_name := p.1, dataset_dir := p.2.dir, is_new := p.2.isNew } := by
          exact (Option.some.injEq _ _ ▸ h).symm
        refine ⟨rfl, ?_, hl⟩
        rw [hl]
        intro hnil
        rw [hnil] at hlen
        simp at hlen

/-- Witness for C8: one qualifying mapping yields the field with exactly
that mapping. -/
theorem dataset_mappings_field_iff_witness :
    datasetMappingsField false [("Jane Doe".data, ⟨"/ds/jane_doe".data, true, .newDir⟩)]
        = some [{ subject_name := "Jane Doe".data, dataset_dir := "/ds/jane_doe".data,
                  is_new := true }] →
      false = false ∧
      [({ subject_name := "Jane Doe".data, dataset_dir := "/ds/jane_doe".data,
          is_new := true } : DatasetMapping)] ≠ [] ∧
      [({ subject_name := "Jane Doe".data, dataset_dir := "/ds/jane_doe".data,
          is_new := true } : DatasetMapping)] =
        ([("Jane Doe".data, (⟨"/ds/jane_doe".data, true, .newDir⟩ : DatasetMappingState))].filter
            fun p => dsQualifies p.2).map fun p =>
          { subject_name := p.1, dataset_dir := p.2.dir, is_new := p.2.isNew } :=
  (dataset_mappings_field_iff false
    [("Jane Doe".data, ⟨"/ds/jane_doe".data, true, .newDir⟩)]).2 _

/-! ## Crash recovery (C2) -/

lemma sweepPackage_status_ne_processing (p : PackageRow) :
    (sweepPackage p).status ≠ .processing := by
  unfold sweepPackage
  by_cases h : p.status = .processing
  · rw [if_pos h]
    intro hc
    exact PackageStatus.noConfusion hc
  · rw [if_neg h]
    exact h

lemma filter_error_map_sweep (ps : List PackageRow) :
    ((ps.map sweepPackage).filter fun p => p.status = .error).length
      = (ps.filter fun p => p.status = .error).length
        + (ps.filter fun p => p.status = .processing).length := by
  induction ps with
  | nil => rfl
  | cons p t ih =>
    by_cases hp : p.status = .processing
    · have hsw : sweepPackage p = { p with status := .error } := if_pos hp
      have hpe : ¬ p.status = .error := by
        rw [hp]
        intro hc
        exact PackageStatus.noConfusion hc
      simp [List.filter_cons, hsw, hp, hpe]
      omega
    · have hsw : sweepPackage p = p := if_neg hp
      by_cases hpe : p.status = .error
      · simp [List.filter_cons, hsw, hp, hpe]
        omega
      · simp [List.filter_cons, hsw, hp, hpe]
        omega

/-- Claim C2 (spec-modelled, §4.5): `recover()` transitions every `processing`
Package row to `error`, returns the number transitioned, leaves zero rows in
`processing`, grows the `error` rows by exactly that count, leaves Asset rows
and every non-`processing` package untouched. -/
theorem recover_marks_processing_as_error (db : Db) :
    ((recover db).2 = (db.packages.filter fun p => p.status = .processing).length) ∧
    (((recover db).1.packages.filter fun p => p.status = .processing).length = 0) ∧
    (((recover db).1.packages.filter fun p => p.status = .error).length
        = (db.packages.filter fun p => p.status = .error).length + (recover db).2) ∧
    ((recover db).1.assets = db.assets) ∧
    ((recover db).1.packages.length = db.packages.length) ∧
    (∀ i : Nat, ((recover db).1.packages[i]?).map PackageRow.status
        = (db.packages[i]?).map fun p =>
            if p.status = .processing then PackageStatus.error else p.status) ∧
    (∀ i : Nat, ∀ p, db.packages[i]? = some p → p.status ≠ .processing →
        (recover db).1.packages[i]? = some p) := by
  refine ⟨rfl, ?_, ?_, rfl, by simp [recover], ?_, ?_⟩
  · have : ((db.packages.map sweepPackage).filter fun p => p.status = .processing) = [] := by
      apply List.filter_eq_nil_iff.mpr
      intro q hq
      obtain ⟨p, _, rfl⟩ := List.mem_map.mp hq
      simpa using sweepPackage_status_ne_processing p
    show ((db.packages.map sweepPackage).filter fun p => p.status = .processing).length = 0
    rw [this]
    rfl
  · exact filter_error_map_sweep db.packages
  · intro i
    show ((db.packages.map sweepPackage)[i]?).map PackageRow.status = _
    rw [List.getElem?_map, Option.map_map]
    cases db.packages[i]? with
    | none => rfl
    | some p =>
      simp only [Option.map_some', Function.comp_apply]
      unfold sweepPackage
      by_cases hp : p.status = .processing
      · rw [if_pos hp, if_pos hp]
      · rw [if_neg hp, if_neg hp]
  · intro i p hi hne
    show (db.packages.map sweepPackage)[i]? = _
    rw [List.getElem?_map, hi]
    simp only [Option.map_some']
    unfold sweepPackage
    rw [if_neg hne]

/-- Witness for C2 at a two-package database. -/
theorem recover_marks_processing_as_error_witness :
    (recover ⟨[⟨1, "a".data, .processing, 0, 0⟩, ⟨2, "b".data, .ready, 3, 9⟩],
        [⟨1, "f.mp4".data, "/x/f.mp4".data⟩]⟩).1.packages[1]?
      = some ⟨2, "b".data, .ready, 3, 9⟩ :=
  (recover_marks_processing_as_error
    ⟨[⟨1, "a".data, .processing, 0, 0⟩, ⟨2, "b".data, .ready, 3, 9⟩],
      [⟨1, "f.mp4".data, "/x/f.mp4".data⟩]⟩).2.2.2.2.2.2 1
    ⟨2, "b".data, .ready, 3, 9⟩ rfl (by decide)

/-! ## Wizard transitions around the ingest attempt (C7) -/

/-- Claim C7: if `executeIngestStream` rejects, the wizard moves from
`ingesting` back to `confirm` with no result recorded; if it resolves, the
wizard moves to `done` and records the returned result. -/
theorem wizard_retry_on_failure :
    (∀ st pf chunks m, (executeIngestStream pf chunks).2 = .error m →
        (runIngestAttempt st pf chunks).step = .confirm ∧
        (runIngestAttempt st pf chunks).result = st.result) ∧
    (∀ st pf chunks r, (executeIngestStream pf chunks).2 = .ok r →
        (runIngestAttempt st pf chunks).step = .done ∧
        (runIngestAttempt st pf chunks).result = some r) := by
  constructor
  · intro st pf chunks m h
    unfold runIngestAttempt handleIngestTransition
    rw [h]
    exact ⟨rfl, rfl⟩
  · intro st pf chunks r h
    unfold runIngestAttempt handleIngestTransition
    rw [h]
    exact ⟨rfl, rfl⟩

/-- Witness for C7: an empty stream rejects and the wizard returns to the
confirm step with no result. -/
theorem wizard_retry_on_failure_witness :
    (runIngestAttempt ⟨.confirm, none⟩ (fun _ => none) []).step = .confirm ∧
    (runIngestAttempt ⟨.confirm, none⟩ (fun _ => none) []).result = none :=
  wizard_retry_on_failure.1 ⟨.confirm, none⟩ (fun _ => none) []
    "Stream ended without completion event".data rfl

/-! ## Resolver precedence (C5) -/

/-- Claim C5 (spec-modelled, §4.2): the resolver's tiers are evaluated in the
fixed order exact, prefix, substring, fuzzy; the first tier with a hit
supplies the top result, a nonempty exact tier wins outright, a lower tier is
consulted only when every higher tier is empty, and the resolver returns
nothing exactly when all four tiers are empty.  The in-source
`findSubjectMatch` obeys the same discipline for its two tiers: its
containment tier is consulted only when the exact lookup found nothing. -/
theorem resolver_match_precedence (sim : List Char → List Char → ℚ) (minScore : ℚ)
    (name : List Char) (dirs : List (List Char)) :
    (∀ d t, resolveTopMatch sim minScore name dirs = some (d, t) →
        d ∈ tierHits sim minScore name dirs t ∧
        ∀ u, tierRank u < tierRank t → tierHits sim minScore name dirs u = []) ∧
    (resolveTopMatch sim minScore name dirs = none ↔
        ∀ t, tierHits sim minScore name dirs t = []) ∧
    ((∀ d rest, tierHits sim minScore name dirs .exact = d :: rest →
        resolveTopMatch sim minScore name dirs = some (d, .exact)) ∧
      ∀ existing raw, (findSubjectMatch existing raw).type ≠ .exact →
        existing.find? (fun s => s.normalized = toLowerChars (normalizeSubjectName raw))
          = none) := by
  have hfsm : ∀ (existing : List ExistingSubject) (raw : List Char),
      (findSubjectMatch existing raw).type ≠ .exact →
      existing.find? (fun s => s.normalized = toLowerChars (normalizeSubjectName raw))
        = none := by
    intro existing raw h
    cases hf : existing.find?
        (fun s => s.normalized = toLowerChars (normalizeSubjectName raw)) with
    | none => rfl
    | some e =>
      exfalso
      apply h
      unfold findSubjectMatch
      dsimp only
      rw [hf]
  have hmain :
      (∀ d t, resolveTopMatch sim minScore name dirs = some (d, t) →
          d ∈ tierHits sim minScore name dirs t ∧
          ∀ u, tierRank u < tierRank t → tierHits sim minScore name dirs u = []) ∧
      (resolveTopMatch sim minScore name dirs = none ↔
          ∀ t, tierHits sim minScore name dirs t = []) ∧
      (∀ d rest, tierHits sim minScore name dirs .exact = d :: rest →
          resolveTopMatch sim minScore name dirs = some (d, .exact)) := by
    unfold resolveTopMatch
    cases hE : tierHits sim minScore name dirs .exact with
    | cons d0 r0 =>
      refine ⟨?_, ?_, ?_⟩
      · intro d t h
        injection h with h1
        injection h1 with hd ht
        subst hd
        subst ht
        constructor
        · rw [hE]
          exact List.mem_cons_self _ _
        · intro u hu
          exact absurd hu (by simp [tierRank])
      · constructor
        · intro h
          exact Option.noConfusion h
        · intro hall
          rw [hall DsMatchType.exact] at hE
          exact List.noConfusion hE
      · intro d rest h
        injection h with hd _
        rw [hd]
    | nil =>
      cases hP : tierHits sim minScore name dirs .prefixMatch with
      | cons d0 r0 =>
        refine ⟨?_, ?_, ?_⟩
        · intro d t h
          injection h with h1
          injection h1 with hd ht
          subst hd
          subst ht
          constructor
          · rw [hP]
            exact List.mem_cons_self _ _
          · intro u hu
            cases u with
            | exact => exact hE
            | prefixMatch => exact absurd hu (by simp [tierRank])
            | substringMatch => exact absurd hu (by simp [tierRank])
            | fuzzy => exact absurd hu (by simp [tierRank])
        · constructor
          · intro h
            exact Option.noConfusion h
          · intro hall
            rw [hall DsMatchType.prefixMatch] at hP
            exact List.noConfusion hP
        · intro d rest h
          exact List.noConfusion h
      | nil =>
        cases hS : tierHits sim minScore name dirs .substringMatch with
        | cons d0 r0 =>
          refine ⟨?_, ?_, ?_⟩
          · intro d t h
            injection h with h1
            injection h1 with hd ht
            subst hd
            subst ht
            constructor
            · rw [hS]
              exact List.mem_cons_self _ _
            · intro u hu
              cases u with
              | exact => exact hE
              | prefixMatch => exact hP
              | substringMatch => exact absurd hu (by simp [tierRank])
              | fuzzy => exact absurd hu (by simp [tierRank])
          · constructor
            · intro h
              exact Option.noConfusion h
            · intro hall
              rw [hall DsMatchType.substringMatch] at hS
              exact List.noConfusion hS
          · intro d rest h
            exact List.noConfusion h
        | nil =>
          cases hF : tierHits sim minScore name dirs .fuzzy with
          | cons d0 r0 =>
            refine ⟨?_, ?_, ?_⟩
            · intro d t h
              injection h with h1
              injection h1 with hd ht
              subst hd
              subst ht
              constructor
              · rw [hF]
                exact List.mem_cons_self _ _
              · intro u hu
                cases u with
                | exact => exact hE
                | prefixMatch => exact hP
                | substringMatch => exact hS
                | fuzzy => exact absurd hu (by simp [tierRank])
            · constructor
              · intro h
                exact Option.noConfusion h
              · intro hall
                rw [hall DsMatchType.fuzzy] at hF
                exact List.noConfusion hF
            · intro d rest h
              exact List.noConfusion h
          | nil =>
            refine ⟨?_, ?_, ?_⟩
            · intro d t h
              exact Option.noConfusion h
            · constructor
              · intro _ t
                cases t with
                | exact => exact hE
                | prefixMatch => exact hP
                | substringMatch => exact hS
                | fuzzy => exact hF
              · intro _
                rfl
            · intro d rest h
              exact List.noConfusion h
  exact ⟨hmain.1, hmain.2.1, hmain.2.2, hfsm⟩

/-- Witness for C5: with dataset directory `jane_doe` and candidate
`jane doe`, the exact tier hits and wins. -/
theorem resolver_match_precedence_witness :
    resolveTopMatch (fun _ _ => 0) (3 / 4) "jane doe".data ["jane_doe".data]
      = some ("jane_doe".data, DsMatchType.exact) :=
  (resolver_match_precedence (fun _ _ => 0) (3 / 4) "jane doe".data
    ["jane_doe".data]).2.2.1 "jane_doe".data [] (by decide)

/-! ## Event-loop lemmas (C1, C3) -/

lemma processLines_ok : ∀ (lines : List StreamLine) (acc : Option IngestExecuteResult)
    (r : IngestExecuteResult), (processLines lines acc).2 = .ok r →
    (∃ el, IngestStreamEvent.complete r.package_id r.file_count r.subjects_created el
        ∈ (processLines lines acc).1) ∨ acc = some r := by
  intro lines
  induction lines with
  | nil =>
    intro acc r h
    cases acc with
    | none => exact Except.noConfusion h
    | some r2 =>
      right
      have hr : r2 = r := Except.ok.inj h
      rw [hr]
  | cons line rest ih =>
    intro acc r h
    cases line with
    | nonData => exact ih acc r h
    | malformed => exact ih acc r h
    | event e =>
      cases e with
      | progress c t f s el =>
        rcases ih acc r h with ⟨el2, hm⟩ | hacc
        · exact Or.inl ⟨el2, List.mem_cons_of_mem _ hm⟩
        · exact Or.inr hacc
      | finalizing m tf el =>
        rcases ih acc r h with ⟨el2, hm⟩ | hacc
        · exact Or.inl ⟨el2, List.mem_cons_of_mem _ hm⟩
        · exact Or.inr hacc
      | complete pid fc sc el =>
        rcases ih (some ⟨pid, fc, sc⟩) r h with ⟨el2, hm⟩ | hacc
        · exact Or.inl ⟨el2, List.mem_cons_of_mem _ hm⟩
        · left
          have hr : r = ⟨pid, fc, sc⟩ := (Option.some.inj hacc).symm
          refine ⟨el, ?_⟩
          rw [hr]
          exact List.mem_cons_self _ _
      | error m el => exact Except.noConfusion h

lemma processLines_error_mem : ∀ (lines : List StreamLine) (acc : Option IngestExecuteResult)
    (m : List Char) (el : Nat),
    IngestStreamEvent.error m el ∈ (processLines lines acc).1 →
    (processLines lines acc).2 = .error m := by
  intro lines
  induction lines with
  | nil =>
    intro acc m el h
    cases acc with
    | none => exact absurd h (List.not_mem_nil _)
    | some r => exact absurd h (List.not_mem_nil _)
  | cons line rest ih =>
    intro acc m el h
    cases line with
    | nonData => exact ih acc m el h
    | malformed => exact ih acc m el h
    | event e =>
      cases e with
      | progress c t f s el2 =>
        rcases List.mem_cons.mp h with heq | hm
        · exact IngestStreamEvent.noConfusion heq
        · exact ih acc m el hm
      | finalizing m2 tf el2 =>
        rcases List.mem_cons.mp h with heq | hm
        · exact IngestStreamEvent.noConfusion heq
        · exact ih acc m el hm
      | complete pid fc sc el2 =>
        rcases List.mem_cons.mp h with heq | hm
        · exact IngestStreamEvent.noConfusion heq
        · exact ih (some ⟨pid, fc, sc⟩) m el hm
      | error m2 el2 =>
        rcases List.mem_cons.mp h with heq | hm
        · have hm2 : m = m2 := by
            injection heq
          show Except.error m2 = Except.error m
          rw [hm2]
        · exact absurd hm (List.not_mem_nil _)

lemma processLines_no_terminal : ∀ (lines : List StreamLine),
    (∀ e, StreamLine.event e ∈ lines → isCompleteEv e = false ∧ isErrorEv e = false) →
    (processLines lines none).2 = .error "Stream ended without completion event".data := by
  intro lines
  induction lines with
  | nil => intro _; rfl
  | cons line rest ih =>
    intro hall
    cases line with
    | nonData => exact ih fun e he => hall e (List.mem_cons_of_mem _ he)
    | malformed => exact ih fun e he => hall e (List.mem_cons_of_mem _ he)
    | event e =>
      have he := hall e (List.mem_cons_self _ _)
      cases e with
      | progress c t f s el => exact ih fun e2 he2 => hall e2 (List.mem_cons_of_mem _ he2)
      | finalizing m tf el => exact ih fun e2 he2 => hall e2 (List.mem_cons_of_mem _ he2)
      | complete pid fc sc el => exact Bool.noConfusion he.1
      | error m el => exact Bool.noConfusion he.2

/-- Claim C1: the promise resolves with the fields of a parsed `complete`
event only if such an event was parsed; a parsed `error` event makes it
reject with that event's message; and a stream that ends with no terminal
event parsed rejects with `"Stream ended without completion event"`. -/
theorem ingest_stream_terminal_protocol (pf : List Char → Option IngestStreamEvent)
    (chunks : List (List Char)) :
    (∀ r, (executeIngestStream pf chunks).2 = .ok r →
        ∃ el, IngestStreamEvent.complete r.package_id r.file_count r.subjects_created el
          ∈ (executeIngestStream pf chunks).1) ∧
    (∀ m el, IngestStreamEvent.error m el ∈ (executeIngestStream pf chunks).1 →
        (executeIngestStream pf chunks).2 = .error m) ∧
    ((∀ e, StreamLine.event e ∈ (extractLines chunks).map (classifyLine pf) →
        isCompleteEv e = false ∧ isErrorEv e = false) →
      (executeIngestStream pf chunks).2
        = .error "Stream ended without completion event".data) := by
  refine ⟨?_, ?_, ?_⟩
  · intro r h
    rcases processLines_ok ((extractLines chunks).map (classifyLine pf)) none r h with hx | hacc
    · exact hx
    · exact Option.noConfusion hacc
  · intro m el h
    exact processLines_error_mem _ none m el h
  · intro hall
    exact processLines_no_terminal _ hall

/-- Witness for C1: a single `data:` line parsed as a complete event resolves
with that event's fields, and the event shows up in the delivery trace. -/
theorem ingest_stream_terminal_protocol_witness :
    ∃ el, IngestStreamEvent.complete "p".data 2 ["s".data] el
        ∈ (executeIngestStream (fun _ => some (.complete "p".data 2 ["s".data] 7))
            ["data: x\n".data]).1 :=
  (ingest_stream_terminal_protocol (fun _ => some (.complete "p".data 2 ["s".data] 7))
    ["data: x\n".data]).1 ⟨"p".data, 2, ["s".data]⟩ rfl

lemma processLines_trace : ∀ (lines : List StreamLine) (acc : Option IngestExecuteResult),
    (processLines lines acc).1 = takeThruError (eventsOf lines) := by
  intro lines
  induction lines with
  | nil =>
    intro acc
    cases acc with
    | none => rfl
    | some r => rfl
  | cons line rest ih =>
    intro acc
    cases line with
    | nonData => exact ih acc
    | malformed => exact ih acc
    | event e =>
      cases e with
      | progress c t f s el => exact congrArg (List.cons _) (ih acc)
      | finalizing m tf el => exact congrArg (List.cons _) (ih acc)
      | complete pid fc sc el => exact congrArg (List.cons _) (ih (some ⟨pid, fc, sc⟩))
      | error m el => rfl

/-- Claim C3: every parsed event — terminal or not — is delivered to
`onProgress` in stream order, with processing stopping only after a
delivered `error` event; the terminal check looks only at the `type` field:
events whose type is neither `"complete"` nor `"error"` (progress events and
`"finalizing"` events) leave the outcome untouched, an `error` event aborts
with its message, and a `complete` event records its payload as the pending
result. -/
theorem ingest_stream_event_classification :
    (∀ lines acc, (processLines lines acc).1 = takeThruError (eventsOf lines)) ∧
    (∀ e rest acc, eventType e ≠ some "complete".data → eventType e ≠ some "error".data →
        (processLines (.event e :: rest) acc).2 = (processLines rest acc).2) ∧
    (∀ m el rest acc, (processLines (.event (.error m el) :: rest) acc).2
        = Except.error m) ∧
    (∀ pid fc sc el rest acc,
        (processLines (.event (.complete pid fc sc el) :: rest) acc).2
          = (processLines rest (some ⟨pid, fc, sc⟩)).2) := by
  refine ⟨processLines_trace, ?_, fun m el rest acc => rfl, fun pid fc sc el rest acc => rfl⟩
  intro e rest acc h1 h2
  cases e with
  | progress c t f s el => rfl
  | finalizing m tf el => rfl
  | complete pid fc sc el => exact absurd rfl h1
  | error m el => exact absurd rfl h2

/-- Witness for C3: a `finalizing` event is non-terminal. -/
theorem ingest_stream_event_classification_witness :
    (processLines [.event (.finalizing "Committing to database".data 3 1)] none).2
      = (processLines [] (none : Option IngestExecuteResult)).2 :=
  ingest_stream_event_classification.2.1 (.finalizing "Committing to database".data 3 1)
    [] none (by decide) (by decide)

/-! ## Line framing (C9) -/

lemma splitOnNl_ne_nil (s : List Char) : splitOnNl s ≠ [] := by
  cases s with
  | nil => exact fun hc => List.noConfusion hc
  | cons c cs =>
    show (match splitOnNl cs with
      | [] => [[c]]
      | p :: ps => if c = '\n' then [] :: p :: ps else (c :: p) :: ps) ≠ []
    cases splitOnNl cs with
    | nil => exact fun hc => List.noConfusion hc
    | cons p ps =>
      dsimp only
      by_cases hc : c = '\n'
      · rw [if_pos hc]
        exact fun hx => List.noConfusion hx
      · rw [if_neg hc]
        exact fun hx => List.noConfusion hx

/-- One unfolding of `splitOnNl` on a cons. -/
lemma splitOnNl_cons (c : Char) (cs : List Char) :
    splitOnNl (c :: cs) = if c = '\n' then [] :: splitOnNl cs
      else (c :: (splitOnNl cs).headD []) :: (splitOnNl cs).tail := by
  cases hA : splitOnNl cs with
  | nil => exact absurd hA (splitOnNl_ne_nil cs)
  | cons p ps =>
    show (match splitOnNl cs with
      | [] => [[c]]
      | p :: ps => if c = '\n' then [] :: p :: ps else (c :: p) :: ps) = _
    rw [hA]
    dsimp only
    by_cases hc : c = '\n'
    · rw [if_pos hc, if_pos hc]
    · rw [if_neg hc, if_neg hc]
      rfl

lemma splitOnNl_no_nl : ∀ (s : List Char), ∀ p ∈ splitOnNl s, '\n' ∉ p := by
  intro s
  induction s with
  | nil =>
    intro p hp
    have hp2 : p = [] := List.mem_singleton.mp hp
    rw [hp2]
    exact List.not_mem_nil _
  | cons c cs ih =>
    intro p hp
    rw [splitOnNl_cons] at hp
    by_cases hc : c = '\n'
    · rw [if_pos hc] at hp
      rcases List.mem_cons.mp hp with rfl | hm
      · exact List.not_mem_nil _
      · exact ih p hm
    · rw [if_neg hc] at hp
      cases hA : splitOnNl cs with
      | nil => exact absurd hA (splitOnNl_ne_nil cs)
      | cons q qs =>
        rw [hA] at hp
        rcases List.mem_cons.mp hp with rfl | hm
        · intro hx
          rcases List.mem_cons.mp hx with he | hq
          · exact hc he.symm
          · exact ih q (by rw [hA]; exact List.mem_cons_self _ _) hq
        · exact ih p (by rw [hA]; exact List.mem_cons_of_mem _ hm)

lemma splitOnNl_eq_single (s : List Char) (h : '\n' ∉ s) : splitOnNl s = [s] := by
  induction s with
  | nil => rfl
  | cons c cs ih =>
    have hc : ¬ c = '\n' := fun he => h (by rw [he]; exact List.mem_cons_self _ _)
    have hcs : '\n' ∉ cs := fun hm => h (List.mem_cons_of_mem _ hm)
    rw [splitOnNl_cons, if_neg hc, ih hcs]
    rfl

lemma no_nl_getLastD (s : List Char) : '\n' ∉ (splitOnNl s).getLastD [] := by
  rcases List.mem_cons.mp (List.getLastD_mem_cons (splitOnNl s) []) with he | hm
  · rw [he]
    exact List.not_mem_nil _
  · exact splitOnNl_no_nl s _ hm

lemma splitOnNl_append (a b : List Char) :
    splitOnNl (a ++ b) = (splitOnNl a).dropLast ++
      ((splitOnNl a).getLastD [] ++ (splitOnNl b).headD []) :: (splitOnNl b).tail := by
  induction a with
  | nil =>
    cases hb : splitOnNl b with
    | nil => exact absurd hb (splitOnNl_ne_nil b)
    | cons q qs =>
      show splitOnNl b = _
      rw [hb]
      rfl
  | cons c cs ih =>
    show splitOnNl (c :: (cs ++ b)) = _
    rw [splitOnNl_cons, splitOnNl_cons c cs, ih]
    cases hA : splitOnNl cs with
    | nil => exact absurd hA (splitOnNl_ne_nil cs)
    | cons p ps =>
      cases hB : splitOnNl b with
      | nil => exact absurd hB (splitOnNl_ne_nil b)
      | cons q qs =>
        by_cases hc : c = '\n'
        · rw [if_pos hc, if_pos hc]
          cases ps with
          | nil => rfl
          | cons p2 ps2 =>
            simp [List.getLastD_cons]
        · rw [if_neg hc, if_neg hc]
          cases ps with
          | nil => rfl
          | cons p2 ps2 =>
            simp [List.getLastD_cons]

lemma extractLinesAux_eq : ∀ (chunks : List (List Char)) (buffer : List Char),
    '\n' ∉ buffer →
    extractLinesAux chunks buffer = (splitOnNl (buffer ++ chunks.flatten)).dropLast := by
  intro chunks
  induction chunks with
  | nil =>
    intro buffer hb
    show [] = (splitOnNl (buffer ++ [])).dropLast
    rw [List.append_nil, splitOnNl_eq_single buffer hb]
    rfl
  | cons chunk rest ih =>
    intro buffer hb
    show (splitOnNl (buffer ++ chunk)).dropLast
        ++ extractLinesAux rest ((splitOnNl (buffer ++ chunk)).getLastD []) = _
    rw [List.flatten_cons, ← List.append_assoc,
      splitOnNl_append (buffer ++ chunk) rest.flatten,
      List.dropLast_append_of_ne_nil _ (List.cons_ne_nil _ _),
      ih _ (no_nl_getLastD (buffer ++ chunk)),
      splitOnNl_append ((splitOnNl (buffer ++ chunk)).getLastD []) rest.flatten,
      splitOnNl_eq_single _ (no_nl_getLastD (buffer ++ chunk))]
    rfl

/-- Claim C9: `executeIngestStream` parses only complete newline-terminated
lines — the residual buffer left when the stream ends is discarded unparsed —
so a stream whose final `data:` line (say a complete event) is not followed
by a newline delivers nothing to `onProgress` and rejects with
`"Stream ended without completion event"`, no matter how the line would have
parsed. -/
theorem trailing_buffer_discarded :
    (∀ chunks : List (List Char),
        extractLines chunks = (splitOnNl chunks.flatten).dropLast) ∧
    (∀ pf : List Char → Option IngestStreamEvent,
        executeIngestStream pf ["data: x".data]
          = ([], .error "Stream ended without completion event".data)) ∧
    classifyLine (fun _ => some (.complete "p".data 1 [] 0)) "data: x".data
      = .event (.complete "p".data 1 [] 0) := by
  refine ⟨?_, ?_, rfl⟩
  · intro chunks
    exact extractLinesAux_eq chunks [] (List.not_mem_nil _)
  · intro pf
    rfl

end BrahmaHub
